import Mathlib

/-!
Verification development for the `clapper` completion-table generator.

The program reads a declarative JSON description of a command-line
interface, rebuilds a `clap` command tree from it, asks the external
completion engine for a completion script for each of the five supported
shells, and serializes the resulting byte buffers into a C++ source file
as a table of two-digit uppercase hexadecimal byte literals.

The definitions below are a shallow embedding of `src/main.rs`:

* `ArgumentDef`, `OptionDef`, `CommandDef`, `CliDef` mirror the serde
  data model (lines 10-58).
* `makeValueParser` mirrors `make_value_parser` (lines 64-82); the
  concrete `clap` value parsers are represented by the `VParser` tags.
* `Arg`, `Command` model the subset of `clap`'s builder state the program
  touches; `make_command` mirrors lines 84-122.
* `emitBytesAux` / `emitBytes` / `entryChars` / `cppFileChars` mirror the
  serialization loop of `main` (lines 161-215); the external completion
  engine `clap_complete::generate` is an abstract function argument
  `gen : Shell → Command → String → List Nat` producing the raw bytes
  for a shell, a command tree and a program name.

Machine bytes (`u8`) are modelled as `Nat` with an explicit `< 256`
bound where it matters; emitted text is modelled as `List Char`.
-/

set_option maxHeartbeats 1000000

namespace Clapper

/-- A positional argument of the declarative model (source struct `ArgumentDef`,
lines 10-22 of `main.rs`). -/
structure ArgumentDef where
  name : String
  description : String
  value_type : Option String
  possible_values : List String
  required : Bool
  global : Bool
deriving DecidableEq

/-- A named option of the declarative model (source struct `OptionDef`,
lines 24-40 of `main.rs`). -/
structure OptionDef where
  name : String
  short_names : List Char
  long_names : List String
  description : String
  value_type : Option String
  possible_values : List String
  required : Bool
  global : Bool
deriving DecidableEq

/-- A command node of the declarative model (source struct `CommandDef`,
lines 42-53 of `main.rs`): name, description, options, subcommands,
arguments, in source field order. -/
inductive CommandDef where
  | mk (name : String) (description : String) (options : List OptionDef)
      (subcommands : List CommandDef) (arguments : List ArgumentDef)

/-- Field accessor for `CommandDef.name`. -/
def CommandDef.name : CommandDef → String
  | .mk n _ _ _ _ => n

/-- Field accessor for `CommandDef.description`. -/
def CommandDef.description : CommandDef → String
  | .mk _ d _ _ _ => d

/-- Field accessor for `CommandDef.options`. -/
def CommandDef.options : CommandDef → List OptionDef
  | .mk _ _ o _ _ => o

/-- Field accessor for `CommandDef.subcommands`. -/
def CommandDef.subcommands : CommandDef → List CommandDef
  | .mk _ _ _ s _ => s

/-- Field accessor for `CommandDef.arguments`. -/
def CommandDef.arguments : CommandDef → List ArgumentDef
  | .mk _ _ _ _ a => a

/-- The top-level declarative document (source struct `CliDef`, lines 55-58). -/
structure CliDef where
  command : CommandDef

/-- The concrete value-parsing strategies `make_value_parser` can return.
Each constructor stands for one of the `clap` parsers produced on
lines 67-81 of `main.rs`; `clapDefault` stands for `clap`'s default
parser of an `Arg` on which no parser was ever set. -/
inductive VParser where
  | possibleValues (vals : List String)
  | pathBuf
  | boolean
  | int64
  | float64
  | nonEmptyString
  | clapDefault
deriving DecidableEq

/-- Embedding of `make_value_parser` (lines 64-82 of `main.rs`): a non-empty
`possible_values` list yields the closed-enumeration parser over exactly
those literals; otherwise the declared `value_type` is dispatched on, with
everything unrecognized (and `none`) falling back to the non-empty-string
parser. (The source name ends in a suffix this development avoids, hence
the camel-case rename.) -/
def makeValueParser (possible_values : List String) (value_type : Option String) : VParser :=
  if possible_values ≠ [] then
    VParser.possibleValues possible_values
  else
    match value_type with
    | some "file" | some "dir" | some "path" => VParser.pathBuf
    | some "boolean" => VParser.boolean
    | some "integer" => VParser.int64
    | some "float" => VParser.float64
    | _ => VParser.nonEmptyString

/-- The slice of `clap::Arg` builder state touched by the program:
identifier, primary long flag, primary short flag, short aliases, long
aliases, required flag, global flag, value parser, help text. The
program never sets a primary short flag, so `short` stays `none`. -/
structure Arg where
  id : String
  long : Option String
  short : Option Char
  short_aliases : List Char
  aliases : List String
  required : Bool
  global : Bool
  vparser : VParser
  help : Option String
deriving DecidableEq

/-- Embedding of the option loop body, lines 92-104 of `main.rs`:
`Arg::new(name).long(name).short_aliases(short_names).aliases(long_names)
.required(required).global(global).value parser(...).help(description)`,
written as the resulting record. -/
def optionToArg (o : OptionDef) : Arg :=
  Arg.mk o.name (some o.name) none o.short_names o.long_names o.required o.global
    (makeValueParser o.possible_values o.value_type) (some o.description)

/-- Embedding of the positional-argument loop body, lines 107-114 of
`main.rs`: `Arg::new(name)` with only parser, required, global and help
set; no long or short flag. -/
def argumentToArg (a : ArgumentDef) : Arg :=
  Arg.mk a.name none none [] [] a.required a.global
    (makeValueParser a.possible_values a.value_type) (some a.description)

/-- The slice of `clap::Command` builder state touched by the program:
name, about text, the three disable flags set on lines 87-89, the
argument list and the subcommand list. -/
inductive Command where
  | mk (name : String) (about : Option String)
      (help_disabled : Bool) (version_disabled : Bool) (help_sub_disabled : Bool)
      (args : List Arg) (subs : List Command)

/-- Accessor: the command's name (`Command::get_name`). -/
def Command.get_name : Command → String
  | .mk n _ _ _ _ _ _ => n

/-- Accessor: the command's about text. -/
def Command.get_about : Command → Option String
  | .mk _ a _ _ _ _ _ => a

/-- Accessor: whether the built-in `--help` flag is disabled. -/
def Command.help_disabled : Command → Bool
  | .mk _ _ h _ _ _ _ => h

/-- Accessor: whether the built-in `--version` flag is disabled. -/
def Command.version_disabled : Command → Bool
  | .mk _ _ _ v _ _ _ => v

/-- Accessor: whether the built-in `help` subcommand is disabled. -/
def Command.help_sub_disabled : Command → Bool
  | .mk _ _ _ _ hs _ _ => hs

/-- Accessor: the arguments registered so far, in registration order. -/
def Command.get_args : Command → List Arg
  | .mk _ _ _ _ _ as _ => as

/-- Accessor: the subcommands registered so far, in registration order. -/
def Command.get_subs : Command → List Command
  | .mk _ _ _ _ _ _ ss => ss

/-- `clap`'s `Command::arg`: appends one argument, leaving everything else
unchanged. -/
def Command.arg : Command → Arg → Command
  | .mk n a h v hs as ss, x => .mk n a h v hs (as ++ [x]) ss

/-- `clap`'s `Command::subcommand`: appends one subcommand, leaving
everything else unchanged. -/
def Command.subcommand : Command → Command → Command
  | .mk n a h v hs as ss, s => .mk n a h v hs as (ss ++ [s])

/-- Embedding of the head of `make_command` (lines 85-89 of `main.rs`):
`Command::new(name).about(description).disable help flag(true)
.disable version flag(true).disable help subcommand(true)`, with no
arguments or subcommands registered yet. -/
def commandBase (name description : String) : Command :=
  Command.mk name (some description) true true true [] []

mutual

/-- Embedding of `make_command` (lines 84-122 of `main.rs`): starting from
`commandBase`, register every declared option, then every declared
positional argument, then every recursively built subcommand, each loop
in declaration order. -/
def make_command : CommandDef → Command
  | CommandDef.mk name description options subcommands arguments =>
    let c1 := options.foldl (fun c o => Command.arg c (optionToArg o)) (commandBase name description)
    let c2 := arguments.foldl (fun c a => Command.arg c (argumentToArg a)) c1
    (make_subcommands subcommands).foldl Command.subcommand c2

/-- The recursive subcommand conversions of the loop on lines 117-119. -/
def make_subcommands : List CommandDef → List Command
  | [] => []
  | d :: rest => make_command d :: make_subcommands rest

end

/-- Modelled from the spec (external collaborator behavior, not code of
this repository): `clap` auto-injects a `--help` and a `--version` flag
into a command unless the corresponding disable flags are set. This
function lists the identifiers of all flags the built node actually
exposes: the explicitly registered ones plus any injected ones. -/
def effectiveArgIds (c : Command) : List String :=
  c.get_args.map Arg.id
    ++ (if c.help_disabled then [] else ["help"])
    ++ (if c.version_disabled then [] else ["version"])

/-- Modelled from the spec (external collaborator behavior, not code of
this repository): `clap` auto-injects a `help` subcommand unless
disabled. This function lists the names of all subcommands the built
node actually exposes. -/
def effectiveSubNames (c : Command) : List String :=
  c.get_subs.map Command.get_name
    ++ (if c.help_sub_disabled then [] else ["help"])

/-- The fixed closed set of supported shells (source: `clap_complete::Shell`
variants listed on lines 168-174 of `main.rs`). -/
inductive Shell where
  | bash
  | zsh
  | fish
  | powershell
  | elvish
deriving DecidableEq

/-- The display name of each shell, as produced by `Shell::to_string()` in
`clap_complete`. -/
def shellName : Shell → String
  | .bash => "bash"
  | .zsh => "zsh"
  | .fish => "fish"
  | .powershell => "powershell"
  | .elvish => "elvish"

/-- The fixed shell array of lines 168-174 of `main.rs`, in source order. -/
def shells : List Shell :=
  [Shell.bash, Shell.zsh, Shell.fish, Shell.powershell, Shell.elvish]

/-- The character standing for hex digit `n` in Rust's uppercase hex
formatting: `0`-`9` then `A`-`F`. -/
def hexDigitChar (n : Nat) : Char :=
  if n < 10 then Char.ofNat (48 + n) else Char.ofNat (55 + n)

/-- The two characters Rust's `{:02X}` produces for a byte `b < 256`:
high nibble then low nibble, uppercase. -/
def byteHex (b : Nat) : List Char :=
  [hexDigitChar (b / 16 % 16), hexDigitChar (b % 16)]

/-- The exact text `write!(cpp_source, "0x{:02X}, ", byte)` emits for one
byte (line 205 of `main.rs`): marker `0x`, two uppercase hex digits, a
comma and a space. -/
def litChars (b : Nat) : List Char :=
  '0' :: 'x' :: byteHex b ++ [',', ' ']

/-- Embedding of the byte-emission loop, lines 201-209 of `main.rs`:
`len` is the total buffer length, `i` the index of the next byte. A
four-space indent is written when `i % 12 == 0`, the byte literal is
always written, and a newline is written after the 12th literal of a
line (`i % 12 == 11`) or after the last byte (`i == len - 1`). -/
def emitBytesAux (len : Nat) : Nat → List Nat → List Char
  | _, [] => []
  | i, b :: rest =>
    (if i % 12 = 0 then [' ', ' ', ' ', ' '] else [])
      ++ litChars b
      ++ (if i % 12 = 11 ∨ i = len - 1 then ['\n'] else [])
      ++ emitBytesAux len (i + 1) rest

/-- The full text the loop of lines 201-209 writes for one buffer. -/
def emitBytes (buf : List Nat) : List Char :=
  emitBytesAux buf.length 0 buf

/-- One emitted line of at most 12 byte literals: four spaces of indent,
the literals, a newline. This is the line shape the spec describes; the
theorem `emitBytes_eq_lines` below relates it to `emitBytes`. -/
def lineOf (c : List Nat) : List Char :=
  ' ' :: ' ' :: ' ' :: ' ' :: (c.map litChars).flatten ++ ['\n']

/-- Splits a buffer into consecutive chunks of 12 bytes, the final chunk
possibly shorter (and never empty). -/
def chunks12 (l : List Nat) : List (List Nat) :=
  if h : l = [] then [] else l.take 12 :: chunks12 (l.drop 12)
termination_by l.length
decreasing_by
  simp only [List.length_drop]
  have hp : 0 < l.length := List.length_pos.mpr h
  omega

/-- One entry of the emitted C++ table for shell `s` and buffer `buf`:
the header line written by line 199 of `main.rs`, the hex-literal block,
and the closing line written by line 210. -/
def entryChars (s : Shell) (buf : List Nat) : List Char :=
  '\x7b' :: ' ' :: '"' :: (shellName s).toList
    ++ ['"', ',', ' ', '\x7b', '\n']
    ++ emitBytes buf
    ++ ['\x7d', '\x7d', ',', '\n']

/-- The include preamble written by lines 162-167 of `main.rs` (four
include lines and one blank line). -/
def includesChars : List Char :=
  "#include <string>\n#include <vector>\n#include <cstdint>\n#include <map>\n\n".toList

/-- The `#define SHELLS` line written by lines 176-185 of `main.rs`:
the quoted shell names joined by commas. -/
def defineShellsChars : List Char :=
  ("#define SHELLS "
    ++ String.intercalate "," (shells.map (fun s => "\"" ++ shellName s ++ "\""))
    ++ "\n").toList

/-- The map-opening line written by lines 187-191 of `main.rs`. -/
def mapOpenChars : List Char :=
  "const std::map<std::string, std::vector<std::uint8_t>> shell_complete = \x7b\n".toList

/-- The map-closing line written by line 212 of `main.rs`. -/
def mapCloseChars : List Char :=
  "\x7d;\n".toList

/-- The per-shell table the generation loop of lines 193-211 builds: one
`(shell, bytes)` pair per entry of `shells`, in that order, where the
bytes come from the external completion engine `gen` applied to the
built command tree and the program name taken from the root node
(line 159 of `main.rs`). -/
def shellTable (gen : Shell → Command → String → List Nat) (root : CommandDef) :
    List (Shell × List Nat) :=
  shells.map fun s =>
    (s, gen s (make_command root) (Command.get_name (make_command root)))

/-- The complete output file `main` writes for a parsed input document:
preamble, shell-name define, the serialized table entries in shell
order, and the closing line. -/
def cppFileChars (gen : Shell → Command → String → List Nat) (cli : CliDef) : List Char :=
  includesChars ++ defineShellsChars ++ mapOpenChars
    ++ ((shellTable gen cli.command).map (fun p => entryChars p.1 p.2)).flatten
    ++ mapCloseChars

/-- Numeric value of an uppercase hex digit character (the inverse of
`hexDigitChar` on digits): `0`-`9` decode via their distance from `'0'`,
`A`-`F` via their distance from `'A'` plus ten. -/
def hexVal (c : Char) : Nat :=
  if c.toNat ≤ 57 then c.toNat - 48 else c.toNat - 55

/-- The decoder of the claim: scan a character stream for `0x`-prefixed
two-digit hex literals and decode each one to its byte value, ignoring
all other characters. -/
def extractBytes : List Char → List Nat
  | '0' :: 'x' :: h :: l :: rest => (16 * hexVal h + hexVal l) :: extractBytes rest
  | _ :: rest => extractBytes rest
  | [] => []

/-- The long-flag spellings under which an `Arg` can be invoked: its
primary long flag, if any, followed by its long aliases. -/
def Arg.long_invocations (a : Arg) : List String :=
  (match a.long with
    | some l => [l]
    | none => []) ++ a.aliases

/-- The short-flag spellings under which an `Arg` can be invoked: its
primary short flag, if any, followed by its short aliases. -/
def Arg.short_invocations (a : Arg) : List Char :=
  (match a.short with
    | some c => [c]
    | none => []) ++ a.short_aliases

/-- A sample option whose name collides with itself when declared twice. -/
def dupOption : OptionDef :=
  OptionDef.mk "x" [] [] "duplicate" none [] false false

/-- A command definition declaring the same option name twice. -/
def dupDef : CommandDef :=
  CommandDef.mk "demo" "" [dupOption, dupOption] [] []

/-- A minimal degenerate root command: no options, arguments or
subcommands. -/
def someDef : CommandDef :=
  CommandDef.mk "tool" "" [] [] []

/-- A concrete stand-in for the external completion engine, used to
instantiate hypotheses of universally quantified theorems. -/
def genW : Shell → Command → String → List Nat :=
  fun _ _ _ => [0, 255, 16, 120]

/-- A 13-byte sample buffer, long enough to force a line wrap. -/
def bufW : List Nat :=
  List.range 13

theorem command_arg_mk (c : Command) (x : Arg) :
    Command.arg c x
      = Command.mk c.get_name c.get_about c.help_disabled c.version_disabled
          c.help_sub_disabled (c.get_args ++ [x]) c.get_subs := by
  cases c
  rfl

theorem command_subcommand_mk (c s : Command) :
    Command.subcommand c s
      = Command.mk c.get_name c.get_about c.help_disabled c.version_disabled
          c.help_sub_disabled c.get_args (c.get_subs ++ [s]) := by
  cases c
  rfl

theorem foldl_arg_eq {α : Type} (l : List α) (f : α → Arg) (c : Command) :
    l.foldl (fun c x => Command.arg c (f x)) c
      = Command.mk c.get_name c.get_about c.help_disabled c.version_disabled
          c.help_sub_disabled (c.get_args ++ l.map f) c.get_subs := by
  induction l generalizing c with
  | nil =>
    cases c
    simp [Command.get_name, Command.get_about, Command.help_disabled,
      Command.version_disabled, Command.help_sub_disabled, Command.get_args,
      Command.get_subs]
  | cons a t ih =>
    rw [List.foldl_cons, ih, command_arg_mk]
    cases c
    simp [Command.get_name, Command.get_about, Command.help_disabled,
      Command.version_disabled, Command.help_sub_disabled, Command.get_args,
      Command.get_subs]

theorem foldl_subcommand_eq (l : List Command) (c : Command) :
    l.foldl Command.subcommand c
      = Command.mk c.get_name c.get_about c.help_disabled c.version_disabled
          c.help_sub_disabled c.get_args (c.get_subs ++ l) := by
  induction l generalizing c with
  | nil =>
    cases c
    simp [Command.get_name, Command.get_about, Command.help_disabled,
      Command.version_disabled, Command.help_sub_disabled, Command.get_args,
      Command.get_subs]
  | cons a t ih =>
    rw [List.foldl_cons, ih, command_subcommand_mk]
    cases c
    simp [Command.get_name, Command.get_about, Command.help_disabled,
      Command.version_disabled, Command.help_sub_disabled, Command.get_args,
      Command.get_subs]

theorem make_subcommands_eq_map (l : List CommandDef) :
    make_subcommands l = l.map make_command := by
  induction l with
  | nil => rw [make_subcommands]; rfl
  | cons d t ih => rw [make_subcommands, ih]; rfl

theorem make_command_eq (d : CommandDef) :
    make_command d
      = Command.mk d.name (some d.description) true true true
          (d.options.map optionToArg ++ d.arguments.map argumentToArg)
          (d.subcommands.map make_command) := by
  cases d with
  | mk n ds opts subs args =>
    rw [make_command, make_subcommands_eq_map, foldl_arg_eq, foldl_arg_eq,
      foldl_subcommand_eq]
    simp [commandBase, Command.get_name, Command.get_about, Command.help_disabled,
      Command.version_disabled, Command.help_sub_disabled, Command.get_args,
      Command.get_subs, CommandDef.name, CommandDef.description,
      CommandDef.options, CommandDef.subcommands, CommandDef.arguments]

theorem make_command_get_name (d : CommandDef) :
    (make_command d).get_name = d.name := by
  rw [make_command_eq]
  rfl

theorem make_command_get_args (d : CommandDef) :
    (make_command d).get_args
      = d.options.map optionToArg ++ d.arguments.map argumentToArg := by
  rw [make_command_eq]
  rfl

theorem make_command_get_subs (d : CommandDef) :
    (make_command d).get_subs = d.subcommands.map make_command := by
  rw [make_command_eq]
  rfl

theorem make_command_arg_ids (d : CommandDef) :
    ((make_command d).get_args).map Arg.id
      = d.options.map OptionDef.name ++ d.arguments.map ArgumentDef.name := by
  rw [make_command_get_args, List.map_append, List.map_map, List.map_map]
  rfl

theorem make_command_sub_names (d : CommandDef) :
    ((make_command d).get_subs).map Command.get_name
      = d.subcommands.map CommandDef.name := by
  rw [make_command_get_subs, List.map_map]
  exact List.map_congr_left fun s _ => make_command_get_name s

theorem chunks12_nil : chunks12 [] = [] := by
  rw [chunks12]
  simp

theorem chunks12_cons (l : List Nat) (h : l ≠ []) :
    chunks12 l = l.take 12 :: chunks12 (l.drop 12) := by
  rw [chunks12]
  simp [h]

theorem chunks12_flatten_bounded :
    ∀ (n : Nat) (l : List Nat), l.length ≤ n → (chunks12 l).flatten = l := by
  intro n
  induction n with
  | zero =>
    intro l hl
    have : l = [] := List.eq_nil_of_length_eq_zero (Nat.le_zero.mp hl)
    subst this
    rw [chunks12_nil]
    rfl
  | succ n ih =>
    intro l hl
    by_cases h : l = []
    · subst h
      rw [chunks12_nil]
      rfl
    · rw [chunks12_cons l h, List.flatten_cons]
      have hd : (l.drop 12).length ≤ n := by
        rw [List.length_drop]
        have : 0 < l.length := List.length_pos.mpr h
        omega
      rw [ih (l.drop 12) hd, List.take_append_drop]

theorem chunks12_flatten (l : List Nat) : (chunks12 l).flatten = l :=
  chunks12_flatten_bounded l.length l le_rfl

theorem chunks12_shape :
    ∀ (n : Nat) (l : List Nat), l.length ≤ n →
      ∀ c ∈ chunks12 l, c ≠ [] ∧ c.length ≤ 12 := by
  intro n
  induction n with
  | zero =>
    intro l hl c hc
    have : l = [] := List.eq_nil_of_length_eq_zero (Nat.le_zero.mp hl)
    subst this
    rw [chunks12_nil] at hc
    cases hc
  | succ n ih =>
    intro l hl c hc
    by_cases h : l = []
    · subst h
      rw [chunks12_nil] at hc
      cases hc
    · rw [chunks12_cons l h] at hc
      rcases List.mem_cons.mp hc with h1 | h2
      · subst h1
        constructor
        · intro ht
          rcases List.take_eq_nil_iff.mp ht with h12 | hnil
          · omega
          · exact h hnil
        · rw [List.length_take]
          omega
      · have hd : (l.drop 12).length ≤ n := by
          rw [List.length_drop]
          have : 0 < l.length := List.length_pos.mpr h
          omega
        exact ih (l.drop 12) hd c h2

theorem chunks12_dropLast_full :
    ∀ (n : Nat) (l : List Nat), l.length ≤ n →
      ∀ c ∈ (chunks12 l).dropLast, c.length = 12 := by
  intro n
  induction n with
  | zero =>
    intro l hl c hc
    have : l = [] := List.eq_nil_of_length_eq_zero (Nat.le_zero.mp hl)
    subst this
    rw [chunks12_nil] at hc
    cases hc
  | succ n ih =>
    intro l hl c hc
    by_cases h : l = []
    · subst h
      rw [chunks12_nil] at hc
      cases hc
    · rw [chunks12_cons l h] at hc
      by_cases hr : l.drop 12 = []
      · rw [hr, chunks12_nil] at hc
        simp at hc
      · have hne : chunks12 (l.drop 12) ≠ [] := by
          rw [chunks12_cons _ hr]
          exact List.cons_ne_nil _ _
        rw [List.dropLast_cons_of_ne_nil hne] at hc
        rcases List.mem_cons.mp hc with h1 | h2
        · subst h1
          have : 12 < l.length := by
            by_contra hle
            exact hr (List.drop_eq_nil_of_le (by omega))
          rw [List.length_take]
          omega
        · have hd : (l.drop 12).length ≤ n := by
            rw [List.length_drop]
            have : 0 < l.length := List.length_pos.mpr h
            omega
          exact ih (l.drop 12) hd c h2

theorem emitBytesAux_tail :
    ∀ (c r : List Nat) (j len : Nat),
      c ≠ [] → 0 < j % 12 → j % 12 + c.length ≤ 12 →
      j + (c.length + r.length) = len →
      (j % 12 + c.length = 12 ∨ r = []) →
      emitBytesAux len j (c ++ r)
        = (c.map litChars).flatten ++ '\n' :: emitBytesAux len (j + c.length) r := by
  intro c
  induction c with
  | nil =>
    intro r j len hne
    exact absurd rfl hne
  | cons b c' ih =>
    intro r j len _ hj hle hlen hend
    rw [List.cons_append, emitBytesAux]
    have h0 : ¬ j % 12 = 0 := by omega
    rw [if_neg h0]
    rcases eq_or_ne c' [] with hc' | hc'
    · subst hc'
      have hnl : j % 12 = 11 ∨ j = len - 1 := by
        rcases hend with h1 | h1
        · left; simp at h1; omega
        · subst h1; right; simp at hlen; omega
      rw [if_pos hnl]
      have hr : r = [] ∨ j % 12 = 11 := by
        rcases hend with h1 | h1
        · right; simp at h1; omega
        · left; exact h1
      simp
    · have hlc' : 0 < c'.length := List.length_pos.mpr hc'
      have hnl : ¬ (j % 12 = 11 ∨ j = len - 1) := by
        simp only [List.length_cons] at hle hlen
        push_neg
        constructor <;> omega
      rw [if_neg hnl]
      have hrec := ih r (j + 1) len hc'
        (by simp only [List.length_cons] at hle ⊢; omega)
        (by simp only [List.length_cons] at hle ⊢; omega)
        (by simp only [List.length_cons] at hlen ⊢; omega)
        (by
          simp only [List.length_cons] at hend ⊢
          rcases hend with h1 | h1
          · left; omega
          · right; exact h1)
      rw [hrec]
      simp only [List.map_cons, List.flatten_cons, List.length_cons]
      have : j + 1 + c'.length = j + (c'.length + 1) := by omega
      rw [this]
      simp

theorem emitBytesAux_chunk (c r : List Nat) (i len : Nat)
    (hne : c ≠ []) (hle : c.length ≤ 12) (hshort : c.length < 12 → r = [])
    (hi : i % 12 = 0) (hlen : i + (c.length + r.length) = len) :
    emitBytesAux len i (c ++ r)
      = lineOf c ++ emitBytesAux len (i + c.length) r := by
  cases c with
  | nil => exact absurd rfl hne
  | cons b c' =>
    rw [List.cons_append, emitBytesAux, if_pos hi]
    rcases eq_or_ne c' [] with hc' | hc'
    · subst hc'
      have hr : r = [] := hshort (by simp)
      subst hr
      have hnl : 0 % 12 = 11 ∨ i = len - 1 := by
        right
        simp at hlen
        omega
      rw [if_pos (by
        rcases hnl with h1 | h1
        · exact Or.inl (by omega)
        · exact Or.inr h1)]
      simp [lineOf, emitBytesAux]
    · have hlc' : 0 < c'.length := List.length_pos.mpr hc'
      have hnl : ¬ (i % 12 = 11 ∨ i = len - 1) := by
        simp only [List.length_cons] at hlen
        push_neg
        constructor <;> omega
      rw [if_neg hnl]
      have hrec := emitBytesAux_tail c' r (i + 1) len hc'
        (by omega)
        (by simp only [List.length_cons] at hle ⊢; omega)
        (by simp only [List.length_cons] at hlen ⊢; omega)
        (by
          simp only [List.length_cons] at hle hshort ⊢
          rcases Nat.lt_or_ge (c'.length + 1) 12 with h1 | h1
          · right; exact hshort h1
          · left; omega)
      rw [hrec]
      simp only [lineOf, List.map_cons, List.flatten_cons, List.length_cons]
      have : i + 1 + c'.length = i + (c'.length + 1) := by omega
      rw [this]
      simp

theorem emitBytesAux_eq_lines :
    ∀ (n : Nat) (buf : List Nat) (i len : Nat),
      buf.length ≤ n → i % 12 = 0 → i + buf.length = len →
      emitBytesAux len i buf = ((chunks12 buf).map lineOf).flatten := by
  intro n
  induction n with
  | zero =>
    intro buf i len hn _ _
    have : buf = [] := List.eq_nil_of_length_eq_zero (Nat.le_zero.mp hn)
    subst this
    rw [chunks12_nil]
    rfl
  | succ n ih =>
    intro buf i len hn hi hlen
    by_cases h : buf = []
    · subst h
      rw [chunks12_nil]
      rfl
    · rw [chunks12_cons buf h, List.map_cons, List.flatten_cons]
      have hsplit : buf.take 12 ++ buf.drop 12 = buf := List.take_append_drop 12 buf
      have htne : buf.take 12 ≠ [] := by
        intro ht
        rcases List.take_eq_nil_iff.mp ht with h12 | hnil
        · omega
        · exact h hnil
      have htle : (buf.take 12).length ≤ 12 := by
        rw [List.length_take]; omega
      have htlen : (buf.take 12).length + (buf.drop 12).length = buf.length := by
        rw [List.length_take, List.length_drop]
        have : 0 < buf.length := List.length_pos.mpr h
        omega
      have hshort : (buf.take 12).length < 12 → buf.drop 12 = [] := by
        intro hlt
        rw [List.length_take] at hlt
        exact List.drop_eq_nil_of_le (by omega)
      have hstep := emitBytesAux_chunk (buf.take 12) (buf.drop 12) i len
        htne htle hshort hi (by rw [htlen]; exact hlen)
      rw [hsplit] at hstep
      rw [hstep]
      congr 1
      rcases eq_or_ne (buf.drop 12) [] with hr | hr
      · rw [hr, chunks12_nil]
        rfl
      · have h12 : 12 < buf.length := by
          by_contra hle2
          exact hr (List.drop_eq_nil_of_le (by omega))
        have htl : (buf.take 12).length = 12 := by
          rw [List.length_take]; omega
        rw [htl]
        exact ih (buf.drop 12) (i + 12) len
          (by rw [List.length_drop]; omega)
          (by omega)
          (by rw [List.length_drop]; omega)

theorem emitBytes_eq_lines (buf : List Nat) :
    emitBytes buf = ((chunks12 buf).map lineOf).flatten :=
  emitBytesAux_eq_lines buf.length buf 0 buf.length le_rfl (by omega) (by omega)

theorem hexVal_hexDigitChar : ∀ n : Nat, n < 16 → hexVal (hexDigitChar n) = n := by
  decide

theorem hexDigitChar_mem :
    ∀ n : Nat, n < 16 → hexDigitChar n ∈ "0123456789ABCDEF".toList := by
  decide

theorem extractBytes_lit (h l : Char) (rest : List Char) :
    extractBytes ('0' :: 'x' :: h :: l :: rest)
      = (16 * hexVal h + hexVal l) :: extractBytes rest := by
  rfl

theorem extractBytes_cons_skip (c : Char) (t : List Char)
    (h : c ≠ '0' ∨ t.head? ≠ some 'x') :
    extractBytes (c :: t) = extractBytes t := by
  rw [extractBytes.eq_def]
  split
  · rename_i heq
    injection heq with h1 h2
    rcases h with hc | ht
    · exact absurd h1 hc
    · rw [h2] at ht
      simp at ht
  · rename_i heq
    injection heq with h1 h2
    rw [h2]
  · rename_i heq
    cases heq

theorem extractBytes_append_no_x :
    ∀ (s rest : List Char), (∀ ch ∈ s, ch ≠ 'x') → rest.head? ≠ some 'x' →
      extractBytes (s ++ rest) = extractBytes rest := by
  intro s
  induction s with
  | nil => intro rest _ _; rfl
  | cons c s' ih =>
    intro rest hs hr
    rw [List.cons_append, extractBytes_cons_skip]
    · exact ih rest (fun ch hch => hs ch (List.mem_cons_of_mem c hch)) hr
    · right
      cases s' with
      | nil => simpa using hr
      | cons d s'' =>
        have : d ≠ 'x' := hs d (by simp)
        simp [this]

theorem extractBytes_lit_block (b : Nat) (rest : List Char) (hb : b < 256) :
    extractBytes (litChars b ++ rest) = b :: extractBytes rest := by
  have hhi : b / 16 % 16 < 16 := Nat.mod_lt _ (by omega)
  have hlo : b % 16 < 16 := Nat.mod_lt _ (by omega)
  show extractBytes ('0' :: 'x' :: hexDigitChar (b / 16 % 16) :: hexDigitChar (b % 16)
      :: ',' :: ' ' :: rest) = b :: extractBytes rest
  rw [extractBytes_lit, extractBytes_cons_skip ',' _ (Or.inl (by decide)),
    extractBytes_cons_skip ' ' _ (Or.inl (by decide)),
    hexVal_hexDigitChar _ hhi, hexVal_hexDigitChar _ hlo]
  have : 16 * (b / 16 % 16) + b % 16 = b := by omega
  rw [this]

theorem extractBytes_lits :
    ∀ (c : List Nat) (rest : List Char), (∀ b ∈ c, b < 256) →
      extractBytes ((c.map litChars).flatten ++ rest) = c ++ extractBytes rest := by
  intro c
  induction c with
  | nil => intro rest _; rfl
  | cons b c' ih =>
    intro rest hb
    rw [List.map_cons, List.flatten_cons, List.append_assoc,
      extractBytes_lit_block b _ (hb b (by simp)),
      ih _ (fun x hx => hb x (List.mem_cons_of_mem b hx))]
    rfl

theorem extractBytes_line (c : List Nat) (rest : List Char) (hb : ∀ b ∈ c, b < 256) :
    extractBytes (lineOf c ++ rest) = c ++ extractBytes rest := by
  have hassoc : lineOf c ++ rest
      = ' ' :: ' ' :: ' ' :: ' ' :: ((c.map litChars).flatten ++ '\n' :: rest) := by
    simp [lineOf]
  rw [hassoc, extractBytes_cons_skip ' ' _ (Or.inl (by decide)),
    extractBytes_cons_skip ' ' _ (Or.inl (by decide)),
    extractBytes_cons_skip ' ' _ (Or.inl (by decide)),
    extractBytes_cons_skip ' ' _ (Or.inl (by decide)),
    extractBytes_lits c _ hb,
    extractBytes_cons_skip '\n' _ (Or.inl (by decide))]

theorem extractBytes_lines :
    ∀ (cl : List (List Nat)) (rest : List Char),
      (∀ c ∈ cl, ∀ b ∈ c, b < 256) →
      extractBytes ((cl.map lineOf).flatten ++ rest) = cl.flatten ++ extractBytes rest := by
  intro cl
  induction cl with
  | nil => intro rest _; rfl
  | cons c cl' ih =>
    intro rest hb
    rw [List.map_cons, List.flatten_cons, List.append_assoc,
      extractBytes_line c _ (hb c (by simp)),
      ih _ (fun x hx => hb x (List.mem_cons_of_mem c hx)),
      List.flatten_cons, List.append_assoc]

theorem extractBytes_emit (buf : List Nat) (rest : List Char)
    (hb : ∀ b ∈ buf, b < 256) :
    extractBytes (emitBytes buf ++ rest) = buf ++ extractBytes rest := by
  rw [emitBytes_eq_lines,
    extractBytes_lines (chunks12 buf) rest
      (fun c hc b hbc => hb b (by
        rw [← chunks12_flatten buf]
        exact List.mem_flatten.mpr ⟨c, hc, hbc⟩)),
    chunks12_flatten]

theorem shellName_no_x (s : Shell) :
    ∀ ch ∈ '\x7b' :: ' ' :: '"' :: (shellName s).toList ++ ['"', ',', ' ', '\x7b', '\n'],
      ch ≠ 'x' := by
  cases s <;> decide

theorem emitBytes_head_ne_x (buf : List Nat) (z : List Char)
    (hz : z.head? ≠ some 'x') :
    (emitBytes buf ++ z).head? ≠ some 'x' := by
  rw [emitBytes_eq_lines]
  cases hch : chunks12 buf with
  | nil => simpa using hz
  | cons c cl =>
    rw [List.map_cons, List.flatten_cons, lineOf]
    simp

/-- Claim C1: for every completion engine, every shell in the fixed set and
every input command tree, decoding the two-digit hexadecimal byte literals
of that shell's table entry reproduces, byte-for-byte, exactly the raw
byte sequence the engine emitted for that shell, the built command tree
and the resolved program name. -/
theorem entry_hex_roundtrip (gen : Shell → Command → String → List Nat)
    (root : CommandDef) (shell : Shell)
    (hb : ∀ b ∈ gen shell (make_command root) (Command.get_name (make_command root)), b < 256) :
    extractBytes
        (entryChars shell (gen shell (make_command root) (Command.get_name (make_command root))))
      = gen shell (make_command root) (Command.get_name (make_command root)) := by
  set buf := gen shell (make_command root) (Command.get_name (make_command root)) with hbuf
  have hassoc : entryChars shell buf
      = ('\x7b' :: ' ' :: '"' :: (shellName shell).toList ++ ['"', ',', ' ', '\x7b', '\n'])
          ++ (emitBytes buf ++ ['\x7d', '\x7d', ',', '\n']) := by
    simp [entryChars]
  rw [hassoc,
    extractBytes_append_no_x _ _ (shellName_no_x shell)
      (emitBytes_head_ne_x buf _ (by decide)),
    extractBytes_emit buf _ hb]
  have : extractBytes ['\x7d', '\x7d', ',', '\n'] = [] := by decide
  rw [this, List.append_nil]

/-- Witness for C1 at a concrete engine, tree and shell. -/
theorem entry_hex_roundtrip_witness :
    extractBytes
        (entryChars Shell.bash
          (genW Shell.bash (make_command someDef) (Command.get_name (make_command someDef))))
      = genW Shell.bash (make_command someDef) (Command.get_name (make_command someDef)) :=
  entry_hex_roundtrip genW someDef Shell.bash (by decide)

/-- Claim C2: for every completion engine and every input command tree
(including the degenerate root with nothing declared), the shell table
contains exactly one entry per shell of the fixed supported set
Bash, Zsh, Fish, PowerShell, Elvish, in that fixed order. -/
theorem table_one_entry_per_shell (gen : Shell → Command → String → List Nat)
    (root : CommandDef) :
    (shellTable gen root).map Prod.fst
        = [Shell.bash, Shell.zsh, Shell.fish, Shell.powershell, Shell.elvish]
      ∧ (shellTable gen root).length = 5
      ∧ ∀ s : Shell, ((shellTable gen root).map Prod.fst).count s = 1 := by
  have hfst : (shellTable gen root).map Prod.fst
      = [Shell.bash, Shell.zsh, Shell.fish, Shell.powershell, Shell.elvish] := by
    simp [shellTable, shells]
  refine ⟨hfst, by simp [shellTable, shells], ?_⟩
  intro s
  rw [hfst]
  cases s <;> rfl

/-- Claim C3: the emitted byte block is exactly the sequence of lines
obtained by chunking the buffer into groups of 12: every line holds at
most 12 literals, every line but the last holds exactly 12, the chunks
concatenate back to the buffer, and each byte is rendered as a two-digit
uppercase-hex literal with the `0x` marker that decodes back to exactly
that byte. -/
theorem emit_hex_line_format (buf : List Nat) (hb : ∀ b ∈ buf, b < 256) :
    emitBytes buf = ((chunks12 buf).map lineOf).flatten
      ∧ (chunks12 buf).flatten = buf
      ∧ (∀ c ∈ (chunks12 buf).dropLast, c.length = 12)
      ∧ (∀ c ∈ chunks12 buf, c ≠ [] ∧ c.length ≤ 12)
      ∧ (∀ b ∈ buf,
          litChars b = '0' :: 'x' :: byteHex b ++ [',', ' ']
            ∧ (byteHex b).length = 2
            ∧ (∀ ch ∈ byteHex b, ch ∈ "0123456789ABCDEF".toList)
            ∧ extractBytes (litChars b) = [b]) := by
  refine ⟨emitBytes_eq_lines buf, chunks12_flatten buf,
    chunks12_dropLast_full buf.length buf le_rfl,
    chunks12_shape buf.length buf le_rfl, ?_⟩
  intro b hbm
  have hblt : b < 256 := hb b hbm
  have hhi : b / 16 % 16 < 16 := Nat.mod_lt _ (by omega)
  have hlo : b % 16 < 16 := Nat.mod_lt _ (by omega)
  refine ⟨rfl, rfl, ?_, ?_⟩
  · intro ch hch
    rcases List.mem_pair.mp hch with h1 | h1 <;> rw [h1]
    · exact hexDigitChar_mem _ hhi
    · exact hexDigitChar_mem _ hlo
  · have := extractBytes_lit_block b [] hblt
    simpa using this

/-- Witness for C3 at a 13-byte buffer, long enough to wrap. -/
theorem emit_hex_line_format_witness :
    emitBytes bufW = ((chunks12 bufW).map lineOf).flatten
      ∧ (chunks12 bufW).flatten = bufW
      ∧ (∀ c ∈ (chunks12 bufW).dropLast, c.length = 12)
      ∧ (∀ c ∈ chunks12 bufW, c ≠ [] ∧ c.length ≤ 12)
      ∧ (∀ b ∈ bufW,
          litChars b = '0' :: 'x' :: byteHex b ++ [',', ' ']
            ∧ (byteHex b).length = 2
            ∧ (∀ ch ∈ byteHex b, ch ∈ "0123456789ABCDEF".toList)
            ∧ extractBytes (litChars b) = [b]) :=
  emit_hex_line_format bufW (by decide)

/-- Claim C4: a non-empty `possible_values` list always resolves to the
closed-enumeration strategy over exactly those literals, and the declared
`value_type` is never consulted: any two declared types give the same
result. -/
theorem possible_values_precedence (pv : List String) (vt : Option String)
    (h : pv ≠ []) :
    makeValueParser pv vt = VParser.possibleValues pv
      ∧ ∀ vt2 : Option String, makeValueParser pv vt = makeValueParser pv vt2 := by
  constructor
  · simp [makeValueParser, h]
  · intro vt2
    simp [makeValueParser, h]

/-- Witness for C4: an enumeration beats a declared `file` type. -/
theorem possible_values_precedence_witness :
    makeValueParser ["json", "text"] (some "file")
      = VParser.possibleValues ["json", "text"] :=
  (possible_values_precedence ["json", "text"] (some "file") (by decide)).1

/-- Claim C5: with empty `possible_values` the resolver is total on the
declared type: `file`, `dir` and `path` give the filesystem-path
strategy, `boolean` the two-valued one, `integer` the signed 64-bit one,
`float` the double-precision one, and any other string, or no declared
type at all, gives the free-text non-empty-string strategy with no error
path. -/
theorem value_type_dispatch_total (s : String) :
    makeValueParser [] (some "file") = VParser.pathBuf
      ∧ makeValueParser [] (some "dir") = VParser.pathBuf
      ∧ makeValueParser [] (some "path") = VParser.pathBuf
      ∧ makeValueParser [] (some "boolean") = VParser.boolean
      ∧ makeValueParser [] (some "integer") = VParser.int64
      ∧ makeValueParser [] (some "float") = VParser.float64
      ∧ makeValueParser [] none = VParser.nonEmptyString
      ∧ (s ∉ (["file", "dir", "path", "boolean", "integer", "float"] : List String) →
          makeValueParser [] (some s) = VParser.nonEmptyString) := by
  refine ⟨rfl, rfl, rfl, rfl, rfl, rfl, rfl, ?_⟩
  intro hs
  simp only [makeValueParser, ne_eq, not_true_eq_false, if_neg, ite_false,
    reduceIte]
  split
  all_goals try rfl
  all_goals
    rename_i heq
    exfalso
    apply hs
    injection heq with h
    rw [h]
    decide

/-- Witness for C5: an unrecognized declared type falls back to free text
without an error. -/
theorem value_type_dispatch_total_witness :
    makeValueParser [] (some "unknown-widget") = VParser.nonEmptyString :=
  (value_type_dispatch_total "unknown-widget").2.2.2.2.2.2.2 (by decide)

/-- Claim C6: the executable node built from a `CommandDef` lists its
options, its positional arguments and its subcommands in exactly their
declaration order: the argument list is the declared options followed by
the declared positionals, both in order, and the subcommand list is the
declared subcommands in order. -/
theorem make_command_preserves_declaration_order (d : CommandDef) :
    (make_command d).get_args
        = d.options.map optionToArg ++ d.arguments.map argumentToArg
      ∧ ((make_command d).get_args).map Arg.id
          = d.options.map OptionDef.name ++ d.arguments.map ArgumentDef.name
      ∧ (make_command d).get_subs = d.subcommands.map make_command
      ∧ ((make_command d).get_subs).map Command.get_name
          = d.subcommands.map CommandDef.name :=
  ⟨make_command_get_args d, make_command_arg_ids d,
    make_command_get_subs d, make_command_sub_names d⟩

/-- Claim C7: the whole pipeline is a deterministic function of the input
document: with the engine fixed, equal inputs produce byte-identical
output files. -/
theorem pipeline_deterministic (gen : Shell → Command → String → List Nat)
    (c1 c2 : CliDef) (h : c1 = c2) :
    cppFileChars gen c1 = cppFileChars gen c2 := by
  rw [h]

/-- Witness for C7 at a concrete engine and input. -/
theorem pipeline_deterministic_witness :
    cppFileChars genW (CliDef.mk someDef) = cppFileChars genW (CliDef.mk someDef) :=
  pipeline_deterministic genW (CliDef.mk someDef) (CliDef.mk someDef) rfl

/-- Claim C8: the builder disables the implicit `--help`/`--version` flags
and the built-in `help` subcommand on every node, so the flags and
subcommands the node effectively exposes (including anything the engine
would auto-inject when not disabled) are exactly the declared ones. -/
theorem no_implicit_help_version (d : CommandDef) :
    (make_command d).help_disabled = true
      ∧ (make_command d).version_disabled = true
      ∧ (make_command d).help_sub_disabled = true
      ∧ effectiveArgIds (make_command d)
          = d.options.map OptionDef.name ++ d.arguments.map ArgumentDef.name
      ∧ effectiveSubNames (make_command d) = d.subcommands.map CommandDef.name := by
  have h1 : (make_command d).help_disabled = true := by
    rw [make_command_eq]; rfl
  have h2 : (make_command d).version_disabled = true := by
    rw [make_command_eq]; rfl
  have h3 : (make_command d).help_sub_disabled = true := by
    rw [make_command_eq]; rfl
  refine ⟨h1, h2, h3, ?_, ?_⟩
  · rw [effectiveArgIds, h1, h2, make_command_arg_ids d]
    simp
  · rw [effectiveSubNames, h3, make_command_sub_names d]
    simp

/-- Counterexample for C9: at the concrete input `dupDef`, which declares
the option name `x` twice under one command, the pipeline performs no
duplicate detection and reports no error: `make_command` completes
normally and the built node silently carries both identically named
options, refuting the claim that a duplicate is detected and reported as
a fatal naming-conflict error. -/
theorem duplicate_names_not_detected_cex :
    ((make_command dupDef).get_args).map Arg.id = ["x", "x"]
      ∧ make_command dupDef
          = Command.mk "demo" (some "") true true true
              [optionToArg dupOption, optionToArg dupOption] [] := by
  constructor
  · rw [make_command_arg_ids dupDef]
    rfl
  · rw [make_command_eq]
    rfl

/-- Claim C9 as amended: the pipeline does not detect duplicate option or
argument names; the builder always succeeds and registers every declared
occurrence, so each name occurs in the built node exactly as many times
as it was declared, and duplicates are silently handed to the underlying
library instead of being reported. -/
theorem duplicate_names_silently_kept (d : CommandDef) (n : String) :
    (((make_command d).get_args).map Arg.id).count n
      = (d.options.map OptionDef.name).count n
          + (d.arguments.map ArgumentDef.name).count n := by
  rw [make_command_arg_ids d, List.count_append]

/-- Claim C10: every option is registered with its canonical name as its
id and as its primary long flag, its `long_names` only as aliases of that
flag and its `short_names` only as short aliases; no primary short flag
is ever set, so an option with empty `short_names` has no short form,
and every option is invocable as `--name`. -/
theorem option_long_flag_and_aliases (o : OptionDef) :
    (optionToArg o).id = o.name
      ∧ (optionToArg o).long = some o.name
      ∧ (optionToArg o).short = none
      ∧ (optionToArg o).aliases = o.long_names
      ∧ (optionToArg o).short_aliases = o.short_names
      ∧ Arg.long_invocations (optionToArg o) = o.name :: o.long_names
      ∧ Arg.short_invocations (optionToArg o) = o.short_names := by
  refine ⟨rfl, rfl, rfl, rfl, rfl, ?_, ?_⟩
  · rw [Arg.long_invocations]
    rfl
  · rw [Arg.short_invocations]
    rfl

end Clapper
